import Mathlib

set_option maxRecDepth 4000

/-!
# Verification of the UC1701/SSD1306 display framebuffer core

A shallow embedding of `klippy/extras/display/uc1701.py` (class `DisplayBase`):
the bit-swizzle transposition, the framebuffer write operations, and the
differential flush algorithm, together with proofs of the specified properties.

Bytearrays are modelled as `List Nat` whose entries are byte values; Python's
unbounded integers are `Nat`.  Send operations are collected into an explicit
output list; a transport fault is modelled by the index of the `send` call that
raises.
-/

namespace UC1701

/-- Python slice assignment `l[s:s+len(r)] = r` on a bytearray: replaces the
(clamped) range starting at `s`; when `s` is at or past the end the
replacement is appended, exactly as Python does for out-of-range slices. -/
def setSlice (l : List Nat) (s : Nat) (r : List Nat) : List Nat :=
  l.take s ++ r ++ l.drop (s + r.length)

/-- `_swizzle_bits(data)`: converts 16 rows of 8-bit row data into two 8-byte
column-major halves, using the multiply-and-mask bit spreading trick
`(data[row] * 0x8040201008040201) & 0x8080808080808080` and accumulating
`top |= spaced >> (7 - row)` (and likewise for rows 8..15 into `bot`);
finally `bits_top = [(top >> s) & 0xff for s in range(0, 64, 8)]`. -/
def swizzle_bits (data : List Nat) : List Nat × List Nat :=
  let step := fun (tb : Nat × Nat) (row : Nat) =>
    let spacedT := (data.getD row 0 * 0x8040201008040201) &&& 0x8080808080808080
    let spacedB := (data.getD (row + 8) 0 * 0x8040201008040201) &&& 0x8080808080808080
    (tb.1 ||| (spacedT >>> (7 - row)), tb.2 ||| (spacedB >>> (7 - row)))
  let tb := (List.range 8).foldl step (0, 0)
  ((List.range 8).map (fun j => (tb.1 >>> (8 * j)) &&& 0xff),
   (List.range 8).map (fun j => (tb.2 >>> (8 * j)) &&& 0xff))

/-- The fixed pseudo-glyph table `TextGlyphs = {'right_arrow': b'\x1a',
'degrees': b'\xf8'}`. -/
def TextGlyphs : List (String × Nat) := [("right_arrow", 0x1a), ("degrees", 0xf8)]

/-- State of a `DisplayBase` object.  `vram` is the list of 8 current pages;
`shadow` holds the second components of the `all_framebuffers` tuples (the
last-transmitted copies, initialized to `b'~' * columns`).  `font` is the
pre-swizzled font table and `icons` the association list of registered
icons (name to (top half, bottom half)). -/
structure DisplayBase where
  columns : Nat
  x_offset : Nat
  vram : List (List Nat)
  shadow : List (List Nat)
  font : List (List Nat × List Nat)
  icons : List (String × (List Nat × List Nat))
  deriving Repr, DecidableEq

/-- `DisplayBase.__init__`: 8 zeroed pages, shadow pages filled with `'~'`
(byte `0x7e`), font pre-swizzled from the supplied row-major glyph table. -/
def mkDisplay (vga_font : List (List Nat)) (columns : Nat) (x_offset : Nat) :
    DisplayBase :=
  { columns := columns
    x_offset := x_offset
    vram := List.replicate 8 (List.replicate columns 0)
    shadow := List.replicate 8 (List.replicate columns 0x7e)
    font := vga_font.map (fun c => swizzle_bits c)
    icons := [] }

/-- The `all_framebuffers` list built in `__init__`:
`[(vram[i], old_data[i], i) for i in range(8)]`. -/
def allFramebuffers (d : DisplayBase) : List (List Nat × List Nat × Nat) :=
  (List.range 8).map (fun i => (d.vram.getD i [], d.shadow.getD i [], i))

/-- Diff detection in `flush`:
`[[i, 1] for i, (n, o) in enumerate(zip(new_data, old_data)) if n != o]`. -/
def diffs1 (new_data old_data : List Nat) : List (Nat × Nat) :=
  ((new_data.zip old_data).enum.filter (fun p => p.2.1 ≠ p.2.2)).map
    (fun p => (p.1, 1))

/-- One iteration of the backward merge loop at index `i`: reads runs `i` and
`i+1` of the current list; when `pos + 5 >= nextpos and nextcount < 16`,
performs `diffs[i][1] = nextcount + (nextpos - pos); del diffs[i+1]`. -/
def mergeStep (diffs : List (Nat × Nat)) (i : Nat) : List (Nat × Nat) :=
  match diffs[i]?, diffs[i+1]? with
  | some d, some dn =>
      if d.1 + 5 ≥ dn.1 ∧ dn.2 < 16 then
        (diffs.set i (d.1, dn.2 + (dn.1 - d.1))).eraseIdx (i+1)
      else diffs
  | _, _ => diffs

/-- The merge loop `for i in range(len(diffs)-2, -1, -1)`: `mergeLoop n`
executes `mergeStep` at indices `n-1, n-2, ..., 0`. -/
def mergeLoop : Nat → List (Nat × Nat) → List (Nat × Nat)
  | 0, diffs => diffs
  | i + 1, diffs => mergeLoop i (mergeStep diffs i)

/-- The complete merge pass of `flush`: a single backward sweep starting at
index `len(diffs) - 2`. -/
def mergeDiffs (diffs : List (Nat × Nat)) : List (Nat × Nat) :=
  mergeLoop (diffs.length - 1) diffs

/-- Structural right-to-left reformulation of the merge loop: each original
run is compared once against the head of the already-merged suffix, and a
merged run is not re-examined against its new right neighbor. -/
def mergeRec : List (Nat × Nat) → List (Nat × Nat)
  | [] => []
  | [x] => [x]
  | x :: y :: rest =>
      match mergeRec (y :: rest) with
      | (nextpos, nextcount) :: tail =>
          if x.1 + 5 ≥ nextpos ∧ nextcount < 16 then
            (x.1, nextcount + (nextpos - x.1)) :: tail
          else
            x :: (nextpos, nextcount) :: tail
      | [] => [x]

/-- The runs transmitted for one page: diff detection followed by the merge
pass. -/
def pageRuns (new_data old_data : List Nat) : List (Nat × Nat) :=
  mergeDiffs (diffs1 new_data old_data)

/-- A call to the abstract sender: either a command sequence (`is_data`
false) or a data payload (`is_data=True`). -/
inductive SendMsg where
  | cmd (bytes : List Nat)
  | data (bytes : List Nat)
  deriving Repr, DecidableEq

/-- The two sends issued for one run `(col_pos, count)` of page `page`:
the position registers `[0xb0 | (page & 0x0F), 0x10 | ((col_pos >> 4) & 0x0F),
col_pos & 0x0F]`, then the data slice `new_data[col_pos:col_pos+count]`. -/
def runSends (new_data : List Nat) (page : Nat) (r : Nat × Nat) : List SendMsg :=
  [SendMsg.cmd [0xb0 ||| (page &&& 0x0F), 0x10 ||| ((r.1 >>> 4) &&& 0x0F),
                r.1 &&& 0x0F],
   SendMsg.data ((new_data.drop r.1).take r.2)]

/-- All sends issued for one dirty page. -/
def pageSends (new_data old_data : List Nat) (page : Nat) : List SendMsg :=
  ((pageRuns new_data old_data).map (runSends new_data page)).flatten

/-- Result of a (possibly aborted) flush: the messages actually handed to
`send`, the resulting shadow pages, and whether an exception propagated. -/
structure FlushOut where
  msgs : List SendMsg
  shadow : List (List Nat)
  raised : Bool
  deriving Repr, DecidableEq

/-- The page loop of `flush` over the `all_framebuffers` triples.  `failAt =
some k` means the `k`-th call to `send` (counting from `cnt`) raises a
transport fault: sends before it are emitted, the exception propagates, and
the shadow of the current and of all later pages is left untouched.  Pages
whose current bytes equal the shadow are skipped; a page's shadow is
committed (`old_data[:] = new_data`) only after all its runs were sent. -/
def flushCore (failAt : Option Nat) (cnt : Nat) :
    List (List Nat × List Nat × Nat) → FlushOut
  | [] => ⟨[], [], false⟩
  | (new_data, old_data, page) :: rest =>
    if new_data = old_data then
      let o := flushCore failAt cnt rest
      ⟨o.msgs, old_data :: o.shadow, o.raised⟩
    else
      let msgs := pageSends new_data old_data page
      match failAt with
      | some k =>
        if k < cnt + msgs.length then
          ⟨msgs.take (k - cnt), old_data :: rest.map (fun t => t.2.1), true⟩
        else
          let o := flushCore failAt (cnt + msgs.length) rest
          ⟨msgs ++ o.msgs, new_data :: o.shadow, o.raised⟩
      | none =>
        let o := flushCore failAt cnt rest
        ⟨msgs ++ o.msgs, new_data :: o.shadow, o.raised⟩

/-- `DisplayBase.flush`, with fault injection: returns the updated display,
the messages handed to `send`, and whether a transport fault propagated. -/
def flush (failAt : Option Nat) (d : DisplayBase) :
    DisplayBase × List SendMsg × Bool :=
  let o := flushCore failAt 0 (allFramebuffers d)
  ({ d with shadow := o.shadow }, o.msgs, o.raised)

/-- The clipping step of `write_text`:
`if x + len(data) > 16: data = data[:16 - min(x, 16)]`. -/
def clipText (x : Nat) (data : List Nat) : List Nat :=
  if 16 < x + data.length then data.take (16 - min x 16) else data

/-- The character loop of `write_text`: for each byte `c`, copy the glyph's
top and bottom 8-byte halves into the two pages at `pix_x`, advancing by 8. -/
def writeChars (font : List (List Nat × List Nat)) (page_top page_bot : List Nat)
    (pix_x : Nat) : List Nat → List Nat × List Nat
  | [] => (page_top, page_bot)
  | c :: cs =>
      let g := font.getD c ([], [])
      writeChars font (setSlice page_top pix_x g.1) (setSlice page_bot pix_x g.2)
        (pix_x + 8) cs

/-- `DisplayBase.write_text(x, y, data)`. -/
def write_text (x y : Nat) (data : List Nat) (d : DisplayBase) : DisplayBase :=
  let data' := clipText x data
  let pix_x := x * 8 + d.x_offset
  let pb := writeChars d.font (d.vram.getD (y * 2) []) (d.vram.getD (y * 2 + 1) [])
    pix_x data'
  { d with vram := (d.vram.set (y * 2) pb.1).set (y * 2 + 1) pb.2 }

/-- One XOR update `page[j] ^= v` (in-range update; the in-scope theorems only
use it at indices below the page length, where it matches Python). -/
def xorAt (page : List Nat) (j v : Nat) : List Nat :=
  page.set j (page.getD j 0 ^^^ v)

/-- The XOR loop of `write_graphics`:
`for i in range(8): page[pix_x + i] ^= bits[i]`. -/
def xorRange (page : List Nat) (pix_x : Nat) (bits : List Nat) : List Nat :=
  (List.range 8).foldl (fun p i => xorAt p (pix_x + i) (bits.getD i 0)) page

/-- `DisplayBase.write_graphics(x, y, data)`: no-op unless `x < 16`, `y < 4`
and `len(data) == 16`; otherwise XORs the swizzled bitmap into the two
target pages. -/
def write_graphics (x y : Nat) (data : List Nat) (d : DisplayBase) : DisplayBase :=
  if 16 ≤ x ∨ 4 ≤ y ∨ data.length ≠ 16 then d
  else
    let bits := swizzle_bits data
    let pix_x := x * 8 + d.x_offset
    let page_top := xorRange (d.vram.getD (y * 2) []) pix_x bits.1
    let page_bot := xorRange (d.vram.getD (y * 2 + 1) []) pix_x bits.2
    { d with vram := (d.vram.set (y * 2) page_top).set (y * 2 + 1) page_bot }

/-- `DisplayBase.set_glyphs`: for each supplied `icon16x16` pair of halves,
swizzle both and store `(top1 + top2, bot1 + bot2)` under the glyph name
(later registration of the same name wins on lookup order here: Python dict
assignment overwrites, modelled by consing in front). -/
def set_glyphs (glyphs : List (String × (List Nat × List Nat))) (d : DisplayBase) :
    DisplayBase :=
  glyphs.foldl
    (fun d' g =>
      let i1 := swizzle_bits g.2.1
      let i2 := swizzle_bits g.2.2
      { d' with icons := (g.1, (i1.1 ++ i2.1, i1.2 ++ i2.2)) :: d'.icons })
    d

/-- `DisplayBase.write_glyph(x, y, glyph_name)`: blit a registered icon when
`x < 15` (returning 2), else fall back to the pseudo-glyph table and
`write_text` (returning 1), else return 0. -/
def write_glyph (x y : Nat) (glyph_name : String) (d : DisplayBase) :
    Nat × DisplayBase :=
  match d.icons.lookup glyph_name with
  | some icon =>
    if x < 15 then
      let pix_x := x * 8 + d.x_offset
      let page_idx := y * 2
      let pt := setSlice (d.vram.getD page_idx []) pix_x icon.1
      let pb := setSlice (d.vram.getD (page_idx + 1) []) pix_x icon.2
      (2, { d with vram := (d.vram.set page_idx pt).set (page_idx + 1) pb })
    else
      match TextGlyphs.lookup glyph_name with
      | some char => (1, write_text x y [char] d)
      | none => (0, d)
  | none =>
      match TextGlyphs.lookup glyph_name with
      | some char => (1, write_text x y [char] d)
      | none => (0, d)

/-- `DisplayBase.clear`: zero every current page (shadow untouched). -/
def clear (d : DisplayBase) : DisplayBase :=
  { d with vram := d.vram.map (fun page => List.replicate page.length 0) }

/-- `DisplayBase.get_dimensions`. -/
def get_dimensions (_ : DisplayBase) : Nat × Nat := (16, 4)

/-- `j` lies inside one of the runs. -/
def coveredBy (runs : List (Nat × Nat)) (j : Nat) : Prop :=
  ∃ r ∈ runs, r.1 ≤ j ∧ j < r.1 + r.2

instance (runs : List (Nat × Nat)) (j : Nat) : Decidable (coveredBy runs j) := by
  unfold coveredBy; infer_instance

/-- Replay a list of runs onto a copy of the shadow page: each run writes the
current page's slice `new_data[pos:pos+count]` at its position, exactly the
byte ranges a display holding `old_data` would receive. -/
def applyRuns (old_data new_data : List Nat) (runs : List (Nat × Nat)) : List Nat :=
  runs.foldl (fun acc r => setSlice acc r.1 ((new_data.drop r.1).take r.2)) old_data

/-- Modelled from the spec: the independent bit-by-bit inverse transpose used
as the reconstruction oracle.  Row `r` of the output has bit `7 - i` (bit `i`
counted from the MSB) set exactly when bit `r mod 8` of byte `i` of the
corresponding half is set. -/
def inverseTranspose (top bot : List Nat) : List Nat :=
  (List.range 16).map (fun r =>
    (List.range 8).foldl
      (fun acc i =>
        acc + (if ((if r < 8 then top else bot).getD i 0).testBit (r % 8)
               then 2 ^ (7 - i) else 0)) 0)

/-- XOR a list of (index, value) updates into a page, one `xorAt` at a time. -/
def xorList (page : List Nat) (ps : List (Nat × Nat)) : List Nat :=
  ps.foldl (fun q r => xorAt q r.1 r.2) page

/-- Modelled from the spec: the row-major font table `font8x14.VGA_FONT` is
repository code outside the analyzed sources; the spec fixes only its format
(256 glyphs, each 16 rows of 8-bit row data, bit 7 leftmost).  Concretely we
supply the standard VGA glyph for `'A'` (code 65, 14 rows padded to 16) and
blank bitmaps elsewhere; the claims settled against it depend only on the
format. -/
def glyphA : List Nat :=
  [0x00, 0x00, 0x10, 0x38, 0x6C, 0xC6, 0xC6, 0xFE, 0xC6, 0xC6, 0xC6, 0xC6,
   0x00, 0x00, 0x00, 0x00]

/-- Modelled from the spec: see `glyphA`. -/
def VGA_FONT : List (List Nat) :=
  (List.range 256).map (fun c => if c = 65 then glyphA else List.replicate 16 0)

/-- The freshly constructed display of the end-to-end scenario (UC1701
geometry: 128 columns, no horizontal offset). -/
def scenario0 : DisplayBase := mkDisplay VGA_FONT 128 0

/-- The scenario display after `write_text(0, 0, "A")` (`"A"` is byte 65). -/
def scenario1 : DisplayBase := write_text 0 0 [65] scenario0

/-- The eight 16-byte runs that a full 128-byte page difference merges into. -/
def fullPageRuns : List (Nat × Nat) :=
  [(0, 16), (16, 16), (32, 16), (48, 16), (64, 16), (80, 16), (96, 16), (112, 16)]

/-- Left half of a sample 16x16 icon (16 rows of 8 bits). -/
def iconLeft : List Nat := List.range 16

/-- Right half of a sample 16x16 icon. -/
def iconRight : List Nat := (List.range 16).map (fun i => 255 - i)

/-- The pre-swizzled halves that `set_glyphs` stores for the sample icon. -/
def iconFan : List Nat × List Nat :=
  ((swizzle_bits iconLeft).1 ++ (swizzle_bits iconRight).1,
   (swizzle_bits iconLeft).2 ++ (swizzle_bits iconRight).2)

/-- A display with the sample icon registered under the name `"fan"`. -/
def displayFan : DisplayBase :=
  set_glyphs [("fan", (iconLeft, iconRight))] (mkDisplay [] 128 0)

/-! ## Helper lemmas -/

theorem setSlice_length {l r : List Nat} {s : Nat} (h : s + r.length ≤ l.length) :
    (setSlice l s r).length = l.length := by
  simp [setSlice]
  omega

theorem getD_setSlice_lt {l r : List Nat} {s j : Nat}
    (hs : s + r.length ≤ l.length) (hj : j < s) :
    (setSlice l s r).getD j 0 = l.getD j 0 := by
  have h1 : j < (l.take s).length := by simp; omega
  simp only [setSlice, List.getD_eq_getElem?_getD, List.append_assoc,
    List.getElem?_append_left h1, List.getElem?_take]
  simp [hj]

theorem getD_setSlice_mem {l r : List Nat} {s j : Nat}
    (hs : s + r.length ≤ l.length) (h1 : s ≤ j) (h2 : j < s + r.length) :
    (setSlice l s r).getD j 0 = r.getD (j - s) 0 := by
  have ht : (l.take s).length = s := by simp; omega
  have hge : (l.take s).length ≤ j := by omega
  simp only [setSlice, List.getD_eq_getElem?_getD, List.append_assoc,
    List.getElem?_append_right hge, ht]
  rw [List.getElem?_append_left (by omega)]

theorem getD_setSlice_ge {l r : List Nat} {s j : Nat}
    (hs : s + r.length ≤ l.length) (hj : s + r.length ≤ j) :
    (setSlice l s r).getD j 0 = l.getD j 0 := by
  have ht : (l.take s).length = s := by simp; omega
  have hge : (l.take s).length ≤ j := by omega
  simp only [setSlice, List.getD_eq_getElem?_getD, List.append_assoc,
    List.getElem?_append_right hge, ht]
  rw [List.getElem?_append_right (show r.length ≤ j - s by omega),
    List.getElem?_drop]
  congr 2
  omega

/-- The merge recursion keeps the head run's start position. -/
theorem mergeRec_head : ∀ (x : Nat × Nat) (rest : List (Nat × Nat)),
    ∃ c tail, mergeRec (x :: rest) = (x.1, c) :: tail
  | x, [] => ⟨x.2, [], rfl⟩
  | x, y :: rest => by
      obtain ⟨c, tail, h⟩ := mergeRec_head y rest
      by_cases hc : x.1 + 5 ≥ y.1 ∧ c < 16
      · exact ⟨c + (y.1 - x.1), tail, by simp only [mergeRec, h, if_pos hc]⟩
      · exact ⟨x.2, (y.1, c) :: tail, by simp only [mergeRec, h, if_neg hc]⟩

/-- Unfolding equation for `mergeRec` on a list with at least two runs. -/
theorem mergeRec_cons_cons {x y : Nat × Nat} {rest : List (Nat × Nat)}
    {np nc : Nat} {tail : List (Nat × Nat)}
    (h : mergeRec (y :: rest) = (np, nc) :: tail) :
    mergeRec (x :: y :: rest) =
      if x.1 + 5 ≥ np ∧ nc < 16 then (x.1, nc + (np - x.1)) :: tail
      else x :: (np, nc) :: tail := by
  unfold mergeRec
  rw [h]

/-- Unfolding equation for `mergeStep` when both runs exist. -/
theorem mergeStep_eq {diffs : List (Nat × Nat)} {i : Nat} {d dn : Nat × Nat}
    (h1 : diffs[i]? = some d) (h2 : diffs[i+1]? = some dn) :
    mergeStep diffs i =
      if d.1 + 5 ≥ dn.1 ∧ dn.2 < 16 then
        (diffs.set i (d.1, dn.2 + (dn.1 - d.1))).eraseIdx (i+1)
      else diffs := by
  unfold mergeStep
  rw [h1, h2]

/-- Invariant of the backward loop: once the suffix from index `n` on has been
merged, running the remaining iterations `n-1, ..., 0` yields the full
structural merge. -/
theorem mergeLoop_eq : ∀ (n : Nat) (l : List (Nat × Nat)), n + 1 ≤ l.length →
    mergeLoop n (l.take n ++ mergeRec (l.drop n)) = mergeRec l := by
  intro n
  induction n with
  | zero => intro l _; simp [mergeLoop]
  | succ n ih =>
    intro l h
    have h2 : n + 1 < l.length := by omega
    have h1 : n < l.length := by omega
    have hd1 : l.drop (n+1) = l[n+1] :: l.drop (n+2) := List.drop_eq_getElem_cons h2
    obtain ⟨c, tail, hm⟩ := mergeRec_head (l[n+1]) (l.drop (n+2))
    have hmRec : mergeRec (l.drop (n+1)) = (l[n+1].1, c) :: tail := by
      rw [hd1, hm]
    have htake : l.take (n+1) = l.take n ++ [l[n]] := by
      rw [List.take_succ, List.getElem?_eq_getElem h1, Option.toList_some]
    have htlen : (l.take (n+1)).length = n + 1 := by simp; omega
    have htlen' : (l.take n).length = n := by simp; omega
    have hcur1 : (l.take (n+1) ++ mergeRec (l.drop (n+1)))[n]? = some l[n] := by
      rw [List.getElem?_append_left (by omega), htake,
        List.getElem?_append_right (by omega), htlen']
      simp
    have hcur2 : (l.take (n+1) ++ mergeRec (l.drop (n+1)))[n+1]? =
        some (l[n+1].1, c) := by
      rw [List.getElem?_append_right (by omega), htlen, hmRec]
      simp
    have hstep : mergeStep (l.take (n+1) ++ mergeRec (l.drop (n+1))) n =
        l.take n ++ mergeRec (l.drop n) := by
      have hdn : l.drop n = l[n] :: l.drop (n+1) := List.drop_eq_getElem_cons h1
      rw [mergeStep_eq hcur1 hcur2]
      have hrhs : mergeRec (l.drop n) =
          if l[n].1 + 5 ≥ l[n+1].1 ∧ c < 16 then
            (l[n].1, c + (l[n+1].1 - l[n].1)) :: tail
          else l[n] :: (l[n+1].1, c) :: tail := by
        rw [hdn, hd1, mergeRec_cons_cons hm]
      by_cases hc : l[n].1 + 5 ≥ l[n+1].1 ∧ c < 16
      · rw [if_pos hc]
        have hset : (l.take (n+1) ++ mergeRec (l.drop (n+1))).set n
            (l[n].1, c + (l[n+1].1 - l[n].1)) =
            (l.take n ++ [(l[n].1, c + (l[n+1].1 - l[n].1))]) ++
              mergeRec (l.drop (n+1)) := by
          rw [List.set_append_left _ _ (by omega), htake,
            List.set_append_right _ _ (by omega), htlen']
          simp
        rw [hset, List.eraseIdx_append_of_length_le (by simp [htlen'])]
        have hz : n + 1 - (l.take n ++ [(l[n].1, c + (l[n+1].1 - l[n].1))]).length = 0 := by
          simp [htlen']
        rw [hz, hmRec, List.eraseIdx_cons_zero, hrhs, if_pos hc]
        simp
      · rw [if_neg hc]
        rw [hrhs, if_neg hc, hmRec, htake, List.append_assoc, List.singleton_append]
    show mergeLoop n (mergeStep (l.take (n+1) ++ mergeRec (l.drop (n+1))) n) =
      mergeRec l
    rw [hstep]
    exact ih l (by omega)

/-- The backward merge loop of `flush` computes the structural right-to-left
merge. -/
theorem mergeDiffs_eq_mergeRec (l : List (Nat × Nat)) : mergeDiffs l = mergeRec l := by
  match l with
  | [] => rfl
  | [x] => rfl
  | x :: y :: rest =>
    set l' := x :: y :: rest with hl
    have hlen : 2 ≤ l'.length := by simp [hl]
    have hdrop : ∃ a, l'.drop (l'.length - 1) = [a] := by
      apply List.length_eq_one.mp
      simp
      omega
    obtain ⟨a, ha⟩ := hdrop
    have : mergeRec (l'.drop (l'.length - 1)) = l'.drop (l'.length - 1) := by
      rw [ha]; rfl
    have heq := mergeLoop_eq (l'.length - 1) l' (by omega)
    rw [this, List.take_append_drop] at heq
    exact heq

/-- Characterization of the detected diffs: exactly the positions (inside both
pages) whose bytes differ, each as a run of length 1. -/
theorem mem_diffs1 {new_data old_data : List Nat} {p c : Nat} :
    (p, c) ∈ diffs1 new_data old_data ↔
      c = 1 ∧ p < new_data.length ∧ p < old_data.length ∧
        new_data.getD p 0 ≠ old_data.getD p 0 := by
  constructor
  · intro h
    obtain ⟨a, ha, hfa⟩ := List.mem_map.mp h
    obtain ⟨hmem, hpred⟩ := List.mem_filter.mp ha
    have hz := List.mem_enum_iff_getElem?.mp hmem
    obtain ⟨x, y, hx, hy, hxy⟩ :=
      List.getElem?_zipWith_eq_some.mp (by rw [← List.zip_eq_zipWith]; exact hz)
    obtain ⟨h1, h2⟩ : a.1 = p ∧ c = 1 := by
      have := congrArg Prod.fst hfa
      have := congrArg Prod.snd hfa
      simp_all
    subst h1
    have hne : a.2.1 ≠ a.2.2 := by simpa using hpred
    obtain ⟨hplt1, -⟩ := List.getElem?_eq_some.mp hx
    obtain ⟨hplt2, -⟩ := List.getElem?_eq_some.mp hy
    refine ⟨h2, hplt1, hplt2, ?_⟩
    rw [List.getD_eq_getElem?_getD, List.getD_eq_getElem?_getD, hx, hy]
    rw [← hxy] at hne
    simpa using hne
  · rintro ⟨hc, hp1, hp2, hne⟩
    subst hc
    apply List.mem_map.mpr
    refine ⟨(p, (new_data[p], old_data[p])), List.mem_filter.mpr ⟨?_, ?_⟩, rfl⟩
    · apply List.mem_enum_iff_getElem?.mpr
      rw [List.zip_eq_zipWith]
      exact List.getElem?_zipWith_eq_some.mpr
        ⟨new_data[p], old_data[p], List.getElem?_eq_getElem hp1,
          List.getElem?_eq_getElem hp2, rfl⟩
    · simp only [decide_eq_true_eq]
      rw [List.getD_eq_getElem?_getD, List.getD_eq_getElem?_getD,
        List.getElem?_eq_getElem hp1, List.getElem?_eq_getElem hp2] at hne
      simpa using hne

theorem enumFrom_pairwise_fst_lt (l : List α) :
    ∀ n : Nat, (l.enumFrom n).Pairwise (fun a b => a.1 < b.1) := by
  induction l with
  | nil => intro n; simp
  | cons x xs ih =>
    intro n
    rw [List.enumFrom_cons]
    exact List.Pairwise.cons
      (fun b hb => by have := List.le_fst_of_mem_enumFrom hb; omega) (ih (n+1))

/-- Detected runs are in strictly increasing position order and disjoint. -/
theorem diffs1_pairwise (new_data old_data : List Nat) :
    (diffs1 new_data old_data).Pairwise (fun a b => a.1 + a.2 ≤ b.1) := by
  unfold diffs1
  rw [List.pairwise_map]
  exact ((enumFrom_pairwise_fst_lt _ 0).filter _).imp (fun h => by
    simp only []
    omega)

/-- The merge pass preserves sortedness, positive lengths, coverage of the
original runs, and keeps every run's start and end among the original starts
and ends. -/
theorem mergeRec_invariant :
    ∀ l : List (Nat × Nat),
      l.Pairwise (fun a b => a.1 + a.2 ≤ b.1) →
      (∀ r ∈ l, 1 ≤ r.2) →
      (mergeRec l).Pairwise (fun a b => a.1 + a.2 ≤ b.1) ∧
      (∀ r ∈ mergeRec l, 1 ≤ r.2) ∧
      (∀ j, coveredBy l j → coveredBy (mergeRec l) j) ∧
      (∀ r ∈ mergeRec l, ∃ b ∈ l, r.1 + r.2 = b.1 + b.2) ∧
      (∀ r ∈ mergeRec l, ∃ b ∈ l, r.1 = b.1) := by
  intro l
  induction l with
  | nil =>
    intro _ _
    exact ⟨by simp [mergeRec], by simp [mergeRec],
      fun j h => by simp [coveredBy] at h, by simp [mergeRec], by simp [mergeRec]⟩
  | cons x rest ih =>
    cases rest with
    | nil =>
      intro _ hcnt
      refine ⟨by simp [mergeRec], ?_, fun j h => ?_, ?_, ?_⟩
      · intro r hr
        have : r = x := by simpa [mergeRec] using hr
        exact this ▸ hcnt x (by simp)
      · simpa [mergeRec, coveredBy] using h
      · intro r hr
        have : r = x := by simpa [mergeRec] using hr
        exact ⟨x, by simp, by rw [this]⟩
      · intro r hr
        have : r = x := by simpa [mergeRec] using hr
        exact ⟨x, by simp, by rw [this]⟩
    | cons y rest' =>
      intro hpw hcnt
      obtain ⟨nc, tail, hm⟩ := mergeRec_head y rest'
      have hpw' : (y :: rest').Pairwise (fun a b => a.1 + a.2 ≤ b.1) :=
        (List.pairwise_cons.mp hpw).2
      have hx : ∀ b ∈ y :: rest', x.1 + x.2 ≤ b.1 := (List.pairwise_cons.mp hpw).1
      have hcnt' : ∀ r ∈ y :: rest', 1 ≤ r.2 := fun r hr => hcnt r (by simp [hr])
      obtain ⟨ihPw, ihCnt, ihCov, ihEnd, ihStart⟩ := ih hpw' hcnt'
      rw [hm] at ihPw ihCnt ihCov ihEnd ihStart
      have hxy : x.1 + x.2 ≤ y.1 := hx y (by simp)
      have hx2 : 1 ≤ x.2 := hcnt x (by simp)
      have hnc : 1 ≤ nc := ihCnt (y.1, nc) (by simp)
      have htailPw : tail.Pairwise (fun a b => a.1 + a.2 ≤ b.1) :=
        (List.pairwise_cons.mp ihPw).2
      have hhead : ∀ b ∈ tail, y.1 + nc ≤ b.1 := (List.pairwise_cons.mp ihPw).1
      rw [mergeRec_cons_cons hm]
      by_cases hc : x.1 + 5 ≥ y.1 ∧ nc < 16
      · rw [if_pos hc]
        refine ⟨?_, ?_, ?_, ?_, ?_⟩
        · exact List.Pairwise.cons (fun b hb => by have := hhead b hb; simp; omega)
            htailPw
        · intro r hr
          rcases List.mem_cons.mp hr with h | h
          · rw [h]; simp; omega
          · exact ihCnt r (by simp [h])
        · intro j hj
          obtain ⟨r, hr, hr1, hr2⟩ := hj
          rcases List.mem_cons.mp hr with h | h
          · rw [h] at hr1 hr2
            refine ⟨(x.1, nc + (y.1 - x.1)), by simp, by simpa using hr1,
              by simp; omega⟩
          · obtain ⟨r', hr', h1', h2'⟩ := ihCov j ⟨r, h, hr1, hr2⟩
            rcases List.mem_cons.mp hr' with h' | h'
            · rw [h'] at h1' h2'
              refine ⟨(x.1, nc + (y.1 - x.1)), by simp, by simp at h1' ⊢; omega,
                by simp at h2' ⊢; omega⟩
            · exact ⟨r', by simp [h'], h1', h2'⟩
        · intro r hr
          rcases List.mem_cons.mp hr with h | h
          · obtain ⟨b, hb, hbe⟩ := ihEnd (y.1, nc) (by simp)
            refine ⟨b, by simp [hb], ?_⟩
            rw [h]
            simp at hbe ⊢
            omega
          · obtain ⟨b, hb, hbe⟩ := ihEnd r (by simp [h])
            exact ⟨b, by simp [hb], hbe⟩
        · intro r hr
          rcases List.mem_cons.mp hr with h | h
          · exact ⟨x, by simp, by rw [h]⟩
          · obtain ⟨b, hb, hbe⟩ := ihStart r (by simp [h])
            exact ⟨b, by simp [hb], hbe⟩
      · rw [if_neg hc]
        refine ⟨?_, ?_, ?_, ?_, ?_⟩
        · refine List.Pairwise.cons (fun b hb => ?_) ihPw
          rcases List.mem_cons.mp hb with h | h
          · rw [h]; simpa using hxy
          · have := hhead b h; omega
        · intro r hr
          rcases List.mem_cons.mp hr with h | h
          · rw [h]; exact hx2
          · exact ihCnt r h
        · intro j hj
          obtain ⟨r, hr, hr1, hr2⟩ := hj
          rcases List.mem_cons.mp hr with h | h
          · exact ⟨x, by simp, by rw [← h]; exact hr1, by rw [← h]; exact hr2⟩
          · obtain ⟨r', hr', h1', h2'⟩ := ihCov j ⟨r, h, hr1, hr2⟩
            exact ⟨r', by simp [hr'], h1', h2'⟩
        · intro r hr
          rcases List.mem_cons.mp hr with h | h
          · exact ⟨x, by simp, by rw [h]⟩
          · obtain ⟨b, hb, hbe⟩ := ihEnd r h
            exact ⟨b, by simp [hb], hbe⟩
        · intro r hr
          rcases List.mem_cons.mp hr with h | h
          · exact ⟨x, by simp, by rw [h]⟩
          · obtain ⟨b, hb, hbe⟩ := ihStart r h
            exact ⟨b, by simp [hb], hbe⟩

/-- Writing the runs' slices of the current page into any page that already
agrees with the current page outside the covered positions reproduces the
current page exactly. -/
theorem applyRuns_eq {new_data : List Nat} :
    ∀ (runs : List (Nat × Nat)) (acc : List Nat),
      acc.length = new_data.length →
      (∀ r ∈ runs, r.1 + r.2 ≤ new_data.length) →
      (∀ j, j < new_data.length →
        acc.getD j 0 = new_data.getD j 0 ∨ coveredBy runs j) →
      applyRuns acc new_data runs = new_data := by
  intro runs
  induction runs with
  | nil =>
    intro acc hlen _ hpt
    apply List.ext_getElem hlen
    intro i h1 h2
    have := hpt i h2
    rcases this with h | h
    · rw [List.getD_eq_getElem?_getD, List.getD_eq_getElem?_getD,
        List.getElem?_eq_getElem h1, List.getElem?_eq_getElem h2] at h
      simpa using h
    · exact absurd h (by simp [coveredBy])
  | cons r rs ih =>
    intro acc hlen hbound hpt
    have hrb : r.1 + r.2 ≤ new_data.length := hbound r (by simp)
    have hslice : ((new_data.drop r.1).take r.2).length = r.2 := by
      simp
      omega
    have hlen' : (setSlice acc r.1 ((new_data.drop r.1).take r.2)).length =
        new_data.length := by
      rw [setSlice_length (by rw [hslice, hlen]; omega), hlen]
    show applyRuns (setSlice acc r.1 ((new_data.drop r.1).take r.2)) new_data rs =
      new_data
    apply ih _ hlen' (fun r' hr' => hbound r' (by simp [hr']))
    intro j hj
    by_cases hcov : r.1 ≤ j ∧ j < r.1 + r.2
    · left
      rw [getD_setSlice_mem (by rw [hslice, hlen]; omega) hcov.1
        (by rw [hslice]; omega)]
      rw [List.getD_eq_getElem?_getD, List.getElem?_take,
        if_pos (show j - r.1 < r.2 by omega), List.getElem?_drop,
        List.getD_eq_getElem?_getD]
      congr 2
      omega
    · have hacc : (setSlice acc r.1 ((new_data.drop r.1).take r.2)).getD j 0 =
          acc.getD j 0 := by
        rcases Nat.lt_or_ge j r.1 with h | h
        · exact getD_setSlice_lt (by rw [hslice, hlen]; omega) h
        · exact getD_setSlice_ge (by rw [hslice, hlen]; omega)
            (by rw [hslice]; omega)
      rw [hacc]
      rcases hpt j hj with h | h
      · exact Or.inl h
      · obtain ⟨r', hr', h1', h2'⟩ := h
        rcases List.mem_cons.mp hr' with h' | h'
        · subst h'; exact absurd ⟨h1', h2'⟩ hcov
        · exact Or.inr ⟨r', h', h1', h2'⟩

/-! ## Bit-level correctness of the swizzle -/

/-- The multiply-and-mask spreading trick: bit `8*i + 7` of
`(b * 0x8040201008040201) & 0x8080808080808080` is bit `7 - i` of `b`. -/
theorem spaced_testBit : ∀ b < 256, ∀ i < 8, ∀ t < 15,
    Nat.testBit ((b * 0x8040201008040201) &&& 0x8080808080808080) (8 * i + t)
      = (decide (t = 7) && Nat.testBit b (7 - i)) := by decide

theorem row_term (b s i r : Nat) (hb : b < 256) (hs : s < 8) (hi : i < 8) (hr : r < 8) :
    Nat.testBit (((b * 0x8040201008040201) &&& 0x8080808080808080) >>> s) (8 * i + r)
      = (decide (s + r = 7) && Nat.testBit b (7 - i)) := by
  rw [Nat.testBit_shiftRight, show s + (8 * i + r) = 8 * i + (s + r) by omega,
    spaced_testBit b hb i hi (s + r) (by omega)]

theorem getD_map_range (f : Nat → Nat) {i n : Nat} (h : i < n) :
    ((List.range n).map f).getD i 0 = f i := by
  rw [List.getD_eq_getElem?_getD, List.getElem?_map, List.getElem?_range h]
  rfl

theorem testBit_and255 (x : Nat) {r : Nat} (hr : r < 8) :
    (x &&& 255).testBit r = x.testBit r := by
  rw [Nat.testBit_and,
    show Nat.testBit 255 r = true from by interval_cases r <;> rfl, Bool.and_true]

theorem range8 : List.range 8 = [0, 1, 2, 3, 4, 5, 6, 7] := by rfl

theorem swizzle_bits_testBit (data : List Nat) (hb : ∀ row, data.getD row 0 < 256)
    {i r : Nat} (hi : i < 8) (hr : r < 8) :
    ((swizzle_bits data).1.getD i 0).testBit r = (data.getD r 0).testBit (7 - i) ∧
    ((swizzle_bits data).2.getD i 0).testBit r = (data.getD (r + 8) 0).testBit (7 - i) := by
  unfold swizzle_bits
  simp only []
  rw [getD_map_range _ hi, getD_map_range _ hi,
    testBit_and255 _ hr, testBit_and255 _ hr, Nat.testBit_shiftRight,
    Nat.testBit_shiftRight]
  simp only [range8, List.foldl_cons, List.foldl_nil]
  simp only [Nat.testBit_or, Nat.zero_testBit]
  rw [row_term _ (7-0) _ _ (hb 0) (by norm_num) hi hr,
    row_term _ (7-1) _ _ (hb 1) (by norm_num) hi hr,
    row_term _ (7-2) _ _ (hb 2) (by norm_num) hi hr,
    row_term _ (7-3) _ _ (hb 3) (by norm_num) hi hr,
    row_term _ (7-4) _ _ (hb 4) (by norm_num) hi hr,
    row_term _ (7-5) _ _ (hb 5) (by norm_num) hi hr,
    row_term _ (7-6) _ _ (hb 6) (by norm_num) hi hr,
    row_term _ (7-7) _ _ (hb 7) (by norm_num) hi hr,
    row_term _ (7-0) _ _ (hb (0+8)) (by norm_num) hi hr,
    row_term _ (7-1) _ _ (hb (1+8)) (by norm_num) hi hr,
    row_term _ (7-2) _ _ (hb (2+8)) (by norm_num) hi hr,
    row_term _ (7-3) _ _ (hb (3+8)) (by norm_num) hi hr,
    row_term _ (7-4) _ _ (hb (4+8)) (by norm_num) hi hr,
    row_term _ (7-5) _ _ (hb (5+8)) (by norm_num) hi hr,
    row_term _ (7-6) _ _ (hb (6+8)) (by norm_num) hi hr,
    row_term _ (7-7) _ _ (hb (7+8)) (by norm_num) hi hr]
  interval_cases r <;> simp

theorem byte_sum_bits : ∀ v < 256,
    0 + (if v.testBit (7-0) then 2 ^ (7-0) else 0)
      + (if v.testBit (7-1) then 2 ^ (7-1) else 0)
      + (if v.testBit (7-2) then 2 ^ (7-2) else 0)
      + (if v.testBit (7-3) then 2 ^ (7-3) else 0)
      + (if v.testBit (7-4) then 2 ^ (7-4) else 0)
      + (if v.testBit (7-5) then 2 ^ (7-5) else 0)
      + (if v.testBit (7-6) then 2 ^ (7-6) else 0)
      + (if v.testBit (7-7) then 2 ^ (7-7) else 0)
      = v := by decide

theorem inverseTranspose_swizzle (data : List Nat) (hlen : data.length = 16)
    (hb : ∀ row, data.getD row 0 < 256) :
    inverseTranspose (swizzle_bits data).1 (swizzle_bits data).2 = data := by
  apply List.ext_getElem (by simp [inverseTranspose, hlen])
  intro r h1 h2
  have hr16 : r < 16 := by omega
  have hval : data.getD r 0 = data[r] := by
    rw [List.getD_eq_getElem?_getD, List.getElem?_eq_getElem h2]
    rfl
  unfold inverseTranspose
  simp only [List.getElem_map, List.getElem_range]
  simp only [show List.range 8 = [0, 1, 2, 3, 4, 5, 6, 7] from rfl,
    List.foldl_cons, List.foldl_nil]
  by_cases hr8 : r < 8
  · simp only [if_pos hr8, Nat.mod_eq_of_lt hr8]
    rw [(swizzle_bits_testBit data hb (by norm_num) hr8).1,
      (swizzle_bits_testBit data hb (by norm_num) hr8).1,
      (swizzle_bits_testBit data hb (by norm_num) hr8).1,
      (swizzle_bits_testBit data hb (by norm_num) hr8).1,
      (swizzle_bits_testBit data hb (by norm_num) hr8).1,
      (swizzle_bits_testBit data hb (by norm_num) hr8).1,
      (swizzle_bits_testBit data hb (by norm_num) hr8).1,
      (swizzle_bits_testBit data hb (by norm_num) hr8).1]
    rw [← hval]
    exact byte_sum_bits _ (hb r)
  · have hmod : r % 8 = r - 8 := by omega
    have hrm : r - 8 < 8 := by omega
    have hadd : r - 8 + 8 = r := by omega
    simp only [if_neg hr8, hmod]
    rw [(swizzle_bits_testBit data hb (by norm_num) hrm).2,
      (swizzle_bits_testBit data hb (by norm_num) hrm).2,
      (swizzle_bits_testBit data hb (by norm_num) hrm).2,
      (swizzle_bits_testBit data hb (by norm_num) hrm).2,
      (swizzle_bits_testBit data hb (by norm_num) hrm).2,
      (swizzle_bits_testBit data hb (by norm_num) hrm).2,
      (swizzle_bits_testBit data hb (by norm_num) hrm).2,
      (swizzle_bits_testBit data hb (by norm_num) hrm).2]
    rw [hadd, ← hval]
    exact byte_sum_bits _ (hb r)

/-! ## XOR update lemmas -/

theorem set_getD_self {α : Type} {l : List α} {dflt : α} {j : Nat}
    (h : j < l.length) : l.set j (l.getD j dflt) = l := by
  apply List.ext_getElem (by simp)
  intro i h1 h2
  rw [List.getElem_set]
  by_cases hij : j = i
  · subst hij
    rw [if_pos rfl, List.getD_eq_getElem?_getD, List.getElem?_eq_getElem h]
    rfl
  · rw [if_neg hij]

theorem xorAt_length (p : List Nat) (j v : Nat) : (xorAt p j v).length = p.length := by
  simp [xorAt]

theorem xorAt_comm {p : List Nat} {i j v w : Nat} (h : i ≠ j) :
    xorAt (xorAt p i v) j w = xorAt (xorAt p j w) i v := by
  unfold xorAt
  have h1 : (p.set i (p.getD i 0 ^^^ v)).getD j 0 = p.getD j 0 := by
    simp [List.getD_eq_getElem?_getD, List.getElem?_set_ne h]
  have h2 : (p.set j (p.getD j 0 ^^^ w)).getD i 0 = p.getD i 0 := by
    simp [List.getD_eq_getElem?_getD, List.getElem?_set_ne (Ne.symm h)]
  rw [h1, h2, List.set_comm _ _ _ h]

theorem xorAt_cancel {p : List Nat} {j v : Nat} (h : j < p.length) :
    xorAt (xorAt p j v) j v = p := by
  unfold xorAt
  have h1 : (p.set j (p.getD j 0 ^^^ v)).getD j 0 = p.getD j 0 ^^^ v := by
    rw [List.getD_eq_getElem?_getD, List.getElem?_set_self (by simpa using h)]
    rfl
  rw [h1, List.set_set, Nat.xor_assoc, Nat.xor_self, Nat.xor_zero]
  exact set_getD_self h

theorem xorList_length : ∀ (ps : List (Nat × Nat)) (p : List Nat),
    (xorList p ps).length = p.length
  | [], _ => rfl
  | q :: ps, p => by
    rw [show xorList p (q :: ps) = xorList (xorAt p q.1 q.2) ps from rfl,
      xorList_length ps, xorAt_length]

theorem xorAt_xorList_comm : ∀ (ps : List (Nat × Nat)) (p : List Nat) (j v : Nat),
    (∀ q ∈ ps, q.1 ≠ j) →
    xorList (xorAt p j v) ps = xorAt (xorList p ps) j v
  | [], _, _, _, _ => rfl
  | q :: ps, p, j, v, hne => by
    rw [show xorList (xorAt p j v) (q :: ps) =
        xorList (xorAt (xorAt p j v) q.1 q.2) ps from rfl,
      show xorList p (q :: ps) = xorList (xorAt p q.1 q.2) ps from rfl,
      xorAt_comm (Ne.symm (hne q (by simp))),
      xorAt_xorList_comm ps _ j v (fun q' hq' => hne q' (by simp [hq']))]

theorem xorList_cancel : ∀ (ps : List (Nat × Nat)) (p : List Nat),
    (ps.map Prod.fst).Nodup → (∀ q ∈ ps, q.1 < p.length) →
    xorList (xorList p ps) ps = p
  | [], _, _, _ => rfl
  | q :: ps, p, hnd, hb => by
    have hnd' : q.1 ∉ ps.map Prod.fst ∧ (ps.map Prod.fst).Nodup := by
      rw [List.map_cons, List.nodup_cons] at hnd
      exact hnd
    have hne : ∀ q' ∈ ps, q'.1 ≠ q.1 := by
      intro q' hq' he
      exact hnd'.1 (he ▸ List.mem_map_of_mem Prod.fst hq')
    rw [show xorList p (q :: ps) = xorList (xorAt p q.1 q.2) ps from rfl,
      show ∀ z, xorList z (q :: ps) = xorList (xorAt z q.1 q.2) ps from fun z => rfl,
      ← xorAt_xorList_comm ps _ q.1 q.2 hne,
      xorAt_cancel (hb q (by simp)),
      xorList_cancel ps p hnd'.2 (fun q' hq' => hb q' (by simp [hq']))]

theorem xorRange_eq_xorList (page : List Nat) (pix_x : Nat) (bits : List Nat) :
    xorRange page pix_x bits =
      xorList page ((List.range 8).map (fun i => (pix_x + i, bits.getD i 0))) := by
  unfold xorRange xorList
  rw [List.foldl_map]

theorem xorRange_length (page : List Nat) (pix_x : Nat) (bits : List Nat) :
    (xorRange page pix_x bits).length = page.length := by
  rw [xorRange_eq_xorList, xorList_length]

/-- XOR-ing the same 8 bytes twice at the same offset restores the page. -/
theorem xorRange_cancel {page : List Nat} {pix_x : Nat} (bits : List Nat)
    (h : pix_x + 8 ≤ page.length) :
    xorRange (xorRange page pix_x bits) pix_x bits = page := by
  rw [xorRange_eq_xorList, xorRange_eq_xorList, xorList_cancel]
  · rw [List.map_map]
    exact (List.nodup_range 8).map (fun a b h => by
      have : pix_x + a = pix_x + b := by simpa using h
      omega)
  · intro q hq
    obtain ⟨i, hi, rfl⟩ := List.mem_map.mp hq
    have : i < 8 := List.mem_range.mp hi
    simp
    omega

/-! ## Flush lemmas -/

/-- The send counter does not influence a fault-free flush. -/
theorem flushCore_none_cnt : ∀ (l : List (List Nat × List Nat × Nat)) (c1 c2 : Nat),
    flushCore none c1 l = flushCore none c2 l
  | [], _, _ => rfl
  | t :: rest, c1, c2 => by
    obtain ⟨n, o, pg⟩ := t
    simp only [flushCore]
    rw [flushCore_none_cnt rest c1 c2]

/-- A fault-free flush commits every page's current bytes to the shadow and
raises nothing. -/
theorem flushCore_none_spec : ∀ (l : List (List Nat × List Nat × Nat)) (cnt : Nat),
    (flushCore none cnt l).shadow = l.map (fun t => t.1) ∧
    (flushCore none cnt l).raised = false
  | [], _ => ⟨rfl, rfl⟩
  | t :: rest, cnt => by
    obtain ⟨n, o, pg⟩ := t
    simp only [flushCore]
    by_cases h : n = o
    · rw [if_pos h]
      refine ⟨?_, (flushCore_none_spec rest cnt).2⟩
      simp only [List.map_cons]
      rw [(flushCore_none_spec rest cnt).1, h]
    · rw [if_neg h]
      exact ⟨by simp only [List.map_cons]; rw [(flushCore_none_spec rest cnt).1],
        (flushCore_none_spec rest cnt).2⟩

/-- When every page already equals its shadow, a flush sends nothing. -/
theorem flushCore_none_msgs_of_clean :
    ∀ (l : List (List Nat × List Nat × Nat)) (cnt : Nat),
      (∀ t ∈ l, t.1 = t.2.1) → (flushCore none cnt l).msgs = []
  | [], _, _ => rfl
  | t :: rest, cnt, hcl => by
    obtain ⟨n, o, pg⟩ := t
    simp only [flushCore]
    rw [if_pos (hcl (n, o, pg) (by simp))]
    exact flushCore_none_msgs_of_clean rest cnt (fun t ht => hcl t (by simp [ht]))

/-- A faulted flush: the emitted messages are the prefix of the fault-free
send sequence up to the failing send, the exception propagates, and there is
a failing page index `j`: pages before `j` are committed, page `j` (which was
dirty) and all later pages keep their old shadow. -/
theorem flushCore_fault_spec :
    ∀ (l : List (List Nat × List Nat × Nat)) (cnt k : Nat), cnt ≤ k →
      (flushCore (some k) cnt l).raised = true →
      (flushCore (some k) cnt l).msgs = (flushCore none cnt l).msgs.take (k - cnt) ∧
      ∃ j, j < l.length ∧
        (∀ t, l[j]? = some t → t.1 ≠ t.2.1) ∧
        (flushCore (some k) cnt l).shadow =
          (l.take j).map (fun t => t.1) ++ (l.drop j).map (fun t => t.2.1)
  | [], cnt, k, hck, hr => by
    simp [flushCore] at hr
  | t :: rest, cnt, k, hck, hr => by
    obtain ⟨n, o, pg⟩ := t
    simp only [flushCore] at hr ⊢
    by_cases h : n = o
    · simp only [if_pos h] at hr ⊢
      obtain ⟨hm, j, hj, hne, hsh⟩ := flushCore_fault_spec rest cnt k hck hr
      refine ⟨hm, j + 1, by simpa using hj, by simpa using hne, ?_⟩
      simp only [List.take_succ_cons, List.drop_succ_cons, List.map_cons,
        List.cons_append]
      rw [hsh, h]
    · simp only [if_neg h] at hr ⊢
      by_cases hk : k < cnt + (pageSends n o pg).length
      · simp only [if_pos hk] at hr ⊢
        refine ⟨?_, 0, by simp, ?_, by simp⟩
        · rw [List.take_append_of_le_length (by simp; omega)]
        · intro t ht
          have ht' : t = (n, o, pg) := by
            have : ((n, o, pg) :: rest)[0]? = some (n, o, pg) := by simp
            rw [this] at ht
            exact (Option.some_inj.mp ht).symm
          rw [ht']
          simpa using h
      · simp only [if_neg hk] at hr ⊢
        have hck' : cnt + (pageSends n o pg).length ≤ k := by omega
        obtain ⟨hm, j, hj, hne, hsh⟩ :=
          flushCore_fault_spec rest (cnt + (pageSends n o pg).length) k hck' hr
        refine ⟨?_, j + 1, by simpa using hj, by simpa using hne, ?_⟩
        · rw [hm, List.take_append_eq_append_take,
            List.take_of_length_le
              (show (pageSends n o pg).length ≤ k - cnt by omega),
            flushCore_none_cnt rest (cnt + (pageSends n o pg).length) cnt,
            Nat.sub_sub]
        · simp only [List.take_succ_cons, List.drop_succ_cons, List.map_cons,
            List.cons_append]
          rw [hsh]

/-! ## Display-level helper lemmas -/

theorem getD_map_range_gen {α : Type} (f : Nat → α) (dflt : α) {i n : Nat}
    (h : i < n) : ((List.range n).map f).getD i dflt = f i := by
  rw [List.getD_eq_getElem?_getD, List.getElem?_map, List.getElem?_range h]
  rfl

theorem allFramebuffers_getElem? (d : DisplayBase) {i : Nat} (h : i < 8) :
    (allFramebuffers d)[i]? = some (d.vram.getD i [], d.shadow.getD i [], i) := by
  unfold allFramebuffers
  rw [List.getElem?_map, List.getElem?_range h]
  rfl

theorem bytes_lt_256 {data : List Nat} (hb : ∀ b ∈ data, b < 256) :
    ∀ row, data.getD row 0 < 256 := by
  intro row
  by_cases h : row < data.length
  · rw [List.getD_eq_getElem?_getD, List.getElem?_eq_getElem h]
    exact hb _ (List.getElem_mem h)
  · rw [List.getD_eq_getElem?_getD, List.getElem?_eq_none (by omega)]
    norm_num

/-! ## Claim theorems -/

/-- C10: `flush` never modifies the current framebuffer pages: whether it
completes or aborts on a transport fault, the `vram` pages are untouched;
only the shadow pages and the emitted sends change. -/
theorem C10_flush_preserves_vram (failAt : Option Nat) (d : DisplayBase) :
    (flush failAt d).1.vram = d.vram ∧
    (flush failAt d).1.columns = d.columns ∧
    (flush failAt d).1.x_offset = d.x_offset := ⟨rfl, rfl, rfl⟩

/-- C4: after a fault-free flush the shadow pages equal the current pages for
every page index, and an immediately following flush with no intervening
writes performs no sends at all. -/
theorem C4_flush_commit (d : DisplayBase) :
    (∀ i, i < 8 → (flush none d).1.shadow.getD i [] = d.vram.getD i []) ∧
    (flush none (flush none d).1).2.1 = [] := by
  have hsh : (flush none d).1.shadow =
      (List.range 8).map (fun i => d.vram.getD i []) := by
    show (flushCore none 0 (allFramebuffers d)).shadow = _
    rw [(flushCore_none_spec _ 0).1]
    unfold allFramebuffers
    rw [List.map_map]
    rfl
  constructor
  · intro i hi
    rw [hsh, getD_map_range_gen _ _ hi]
  · show (flushCore none 0 (allFramebuffers (flush none d).1)).msgs = []
    apply flushCore_none_msgs_of_clean
    intro t ht
    unfold allFramebuffers at ht
    obtain ⟨i, hi, rfl⟩ := List.mem_map.mp ht
    have hi8 : i < 8 := List.mem_range.mp hi
    show (flush none d).1.vram.getD i [] = (flush none d).1.shadow.getD i []
    rw [hsh, getD_map_range_gen _ _ hi8]
    rfl

/-- C1: diff detection yields one length-1 run at exactly the positions where
the current byte differs from the shadow byte; the backward merge pass merges
a run with its already-merged right neighbor exactly when
`pos + 5 >= nextpos` and `nextcount < 16`, setting the merged length to
`nextcount + (nextpos - pos)`, dropping the neighbor, and never re-examining
the merged run against the rest of the merged suffix (the tail is passed
through unchanged); in particular single-byte differences at offsets 10 and
14 merge into the run `(10, 5)`, offsets 10 and 20 stay separate, and a right
neighbor of length 16 is never merged into. -/
theorem C1_diff_detection_and_merge :
    (∀ (new_data old_data : List Nat) (p c : Nat),
      (p, c) ∈ diffs1 new_data old_data ↔
        c = 1 ∧ p < new_data.length ∧ p < old_data.length ∧
          new_data.getD p 0 ≠ old_data.getD p 0) ∧
    (∀ (pos cnt np nc : Nat) (rest tail : List (Nat × Nat)),
      mergeRec rest = (np, nc) :: tail →
      mergeDiffs ((pos, cnt) :: rest) =
        if pos + 5 ≥ np ∧ nc < 16 then (pos, nc + (np - pos)) :: tail
        else (pos, cnt) :: (np, nc) :: tail) ∧
    pageRuns ((List.replicate 128 0).set 10 1 |>.set 14 1)
      (List.replicate 128 0) = [(10, 5)] ∧
    pageRuns ((List.replicate 128 0).set 10 1 |>.set 20 1)
      (List.replicate 128 0) = [(10, 1), (20, 1)] ∧
    pageRuns ((List.range 128).map fun i => if 1 ≤ i ∧ i ≤ 17 then 1 else 0)
      (List.replicate 128 0) = [(1, 1), (2, 16)] := by
  refine ⟨fun _ _ _ _ => mem_diffs1, ?_, by decide, by decide, by decide⟩
  intro pos cnt np nc rest tail hm
  rw [mergeDiffs_eq_mergeRec]
  match rest with
  | [] => simp [mergeRec] at hm
  | y :: rest' => exact mergeRec_cons_cons hm

/-- Witness for C1 at concrete inputs. -/
theorem C1_witness :
    ((0, 1) ∈ diffs1 [3] [5]) ∧ mergeDiffs [(0, 1), (3, 1)] = [(0, 4)] := by
  constructor
  · exact (C1_diff_detection_and_merge.1 [3] [5] 0 1).mpr (by decide)
  · rw [C1_diff_detection_and_merge.2.1 0 1 3 1 [(3, 1)] [] rfl]
    decide

/-- C5: the runs surviving the merge pass are sorted and disjoint, every
position where the current page differs from the shadow page is covered by a
run, every run lies inside the page with positive length, and replaying the
runs' slices of the current page onto the shadow page reproduces the current
page exactly. -/
theorem C5_runs_sync (new_data old_data : List Nat)
    (hlen : new_data.length = old_data.length) (hne : new_data ≠ old_data) :
    (pageRuns new_data old_data).Pairwise (fun a b => a.1 + a.2 ≤ b.1) ∧
    (∀ r ∈ pageRuns new_data old_data, 1 ≤ r.2 ∧ r.1 + r.2 ≤ new_data.length) ∧
    (∀ i, i < new_data.length → new_data.getD i 0 ≠ old_data.getD i 0 →
      coveredBy (pageRuns new_data old_data) i) ∧
    applyRuns old_data new_data (pageRuns new_data old_data) = new_data := by
  have hcnt : ∀ r ∈ diffs1 new_data old_data, 1 ≤ r.2 := by
    intro r hr
    have := mem_diffs1.mp (show (r.1, r.2) ∈ _ from hr)
    omega
  obtain ⟨hPw, hCnt, hCov, hEnd, hStart⟩ :=
    mergeRec_invariant (diffs1 new_data old_data) (diffs1_pairwise _ _) hcnt
  have hpr : pageRuns new_data old_data = mergeRec (diffs1 new_data old_data) := by
    unfold pageRuns
    exact mergeDiffs_eq_mergeRec _
  have hbound : ∀ r ∈ pageRuns new_data old_data, 1 ≤ r.2 ∧
      r.1 + r.2 ≤ new_data.length := by
    intro r hr
    rw [hpr] at hr
    refine ⟨hCnt r hr, ?_⟩
    obtain ⟨b, hb, hbe⟩ := hEnd r hr
    have := mem_diffs1.mp (show (b.1, b.2) ∈ _ from hb)
    omega
  have hcov : ∀ i, i < new_data.length → new_data.getD i 0 ≠ old_data.getD i 0 →
      coveredBy (pageRuns new_data old_data) i := by
    intro i hi hne'
    rw [hpr]
    apply hCov
    exact ⟨(i, 1), mem_diffs1.mpr ⟨rfl, hi, by omega, hne'⟩, by simp, by simp⟩
  refine ⟨by rw [hpr]; exact hPw, hbound, hcov, ?_⟩
  apply applyRuns_eq _ old_data hlen.symm (fun r hr => (hbound r hr).2)
  intro j hj
  by_cases h : new_data.getD j 0 = old_data.getD j 0
  · exact Or.inl h.symm
  · exact Or.inr (hcov j hj h)

/-- Witness for C5 at a concrete page pair. -/
theorem C5_witness :
    applyRuns (List.replicate 128 0)
      ((List.replicate 128 0).set 10 1 |>.set 14 1)
      (pageRuns ((List.replicate 128 0).set 10 1 |>.set 14 1)
        (List.replicate 128 0)) =
      ((List.replicate 128 0).set 10 1 |>.set 14 1) :=
  (C5_runs_sync ((List.replicate 128 0).set 10 1 |>.set 14 1)
    (List.replicate 128 0) (by decide) (by decide)).2.2.2

/-- C2: `_swizzle_bits` computes the GF(2) matrix transposes of the two
stacked 8x8 blocks: bit `row` of output byte `i` of the top (resp. bottom)
half equals bit `i` counted from the MSB of input row `row` (resp. `row + 8`),
and the independent bit-by-bit inverse transpose reconstructs the original
16-row bitmap exactly. -/
theorem C2_swizzle_transpose (data : List Nat) (hlen : data.length = 16)
    (hb : ∀ b ∈ data, b < 256) :
    (swizzle_bits data).1.length = 8 ∧ (swizzle_bits data).2.length = 8 ∧
    (∀ i, i < 8 → ∀ row, row < 8 →
      ((swizzle_bits data).1.getD i 0).testBit row =
        (data.getD row 0).testBit (7 - i) ∧
      ((swizzle_bits data).2.getD i 0).testBit row =
        (data.getD (row + 8) 0).testBit (7 - i)) ∧
    inverseTranspose (swizzle_bits data).1 (swizzle_bits data).2 = data := by
  refine ⟨by simp [swizzle_bits], by simp [swizzle_bits], ?_, ?_⟩
  · intro i hi row hrow
    exact swizzle_bits_testBit data (bytes_lt_256 hb) hi hrow
  · exact inverseTranspose_swizzle data hlen (bytes_lt_256 hb)

/-- Witness for C2 on a concrete bitmap (the glyph `'A'` model). -/
theorem C2_witness :
    inverseTranspose (swizzle_bits glyphA).1 (swizzle_bits glyphA).2 = glyphA :=
  (C2_swizzle_transpose glyphA (by decide) (by decide)).2.2.2

set_option maxHeartbeats 4000000 in
/-- A page of zeros against a shadow page of sentinel bytes `0x7e` merges
into the eight 16-byte runs covering the whole 128-byte page. -/
theorem pageRuns_full_sentinel :
    pageRuns (List.replicate 128 0) (List.replicate 128 0x7e) = fullPageRuns := by
  decide

set_option maxHeartbeats 4000000 in
/-- C3 counterexample: in the end-to-end scenario (fresh display, then
`write_text(0, 0, "A")`, then flush) the shadow sentinel `b'~'` differs from
every byte of the zeroed pages, so page 0 — a touched page — is transmitted
as eight 16-byte runs, not as a single run covering the columns of
glyph `'A'`. -/
theorem C3_counterexample :
    ¬ (pageRuns (scenario1.vram.getD 0 [])
        (scenario1.shadow.getD 0 [])).length = 1 := by
  decide

set_option maxHeartbeats 4000000 in
/-- C3 amended: the shadow pages are initialized to the sentinel `b'~'`
(byte `0x7e`), which differs from every byte of the zeroed pages, so the
first flush transmits every page in full: in the scenario each of the 8
pages — touched or not — is sent as the eight 16-byte runs
`(0,16), (16,16), ..., (112,16)` covering the whole page, no transport fault
is raised, and afterwards the shadow pages equal the current pages. -/
theorem C3_amended :
    (flush none scenario1).1.shadow = scenario1.vram ∧
    (flush none scenario1).2.2 = false ∧
    (∀ p, p < 8 →
      pageRuns (scenario1.vram.getD p []) (scenario1.shadow.getD p []) =
        fullPageRuns) := by
  refine ⟨by decide, by decide, ?_⟩
  intro p hp
  interval_cases p
  · decide
  · decide
  · rw [show scenario1.vram.getD 2 [] = List.replicate 128 0 from by decide,
      show scenario1.shadow.getD 2 [] = List.replicate 128 0x7e from by decide]
    exact pageRuns_full_sentinel
  · rw [show scenario1.vram.getD 3 [] = List.replicate 128 0 from by decide,
      show scenario1.shadow.getD 3 [] = List.replicate 128 0x7e from by decide]
    exact pageRuns_full_sentinel
  · rw [show scenario1.vram.getD 4 [] = List.replicate 128 0 from by decide,
      show scenario1.shadow.getD 4 [] = List.replicate 128 0x7e from by decide]
    exact pageRuns_full_sentinel
  · rw [show scenario1.vram.getD 5 [] = List.replicate 128 0 from by decide,
      show scenario1.shadow.getD 5 [] = List.replicate 128 0x7e from by decide]
    exact pageRuns_full_sentinel
  · rw [show scenario1.vram.getD 6 [] = List.replicate 128 0 from by decide,
      show scenario1.shadow.getD 6 [] = List.replicate 128 0x7e from by decide]
    exact pageRuns_full_sentinel
  · rw [show scenario1.vram.getD 7 [] = List.replicate 128 0 from by decide,
      show scenario1.shadow.getD 7 [] = List.replicate 128 0x7e from by decide]
    exact pageRuns_full_sentinel

/-- Witness for the amended C3 statement at page 0. -/
theorem C3_amended_witness :
    pageRuns (scenario1.vram.getD 0 []) (scenario1.shadow.getD 0 []) =
      fullPageRuns :=
  C3_amended.2.2 0 (by decide)

/-- C7: calling `write_graphics` twice with identical arguments leaves every
current page byte unchanged: when the guard passes the two XOR applications
cancel, and when the guard fails both calls are no-ops. -/
theorem C7_write_graphics_involutive (d : DisplayBase) (x y : Nat)
    (data : List Nat) (hv : d.vram.length = 8)
    (hpages : ∀ p ∈ d.vram, p.length = d.columns)
    (hcols : 128 + d.x_offset ≤ d.columns) :
    (write_graphics x y data (write_graphics x y data d)).vram = d.vram := by
  by_cases hg : 16 ≤ x ∨ 4 ≤ y ∨ data.length ≠ 16
  · unfold write_graphics
    rw [if_pos hg, if_pos hg]
  · push_neg at hg
    obtain ⟨hx, hy, hdata⟩ := hg
    have ha8 : y * 2 < 8 := by omega
    have hb8 : y * 2 + 1 < 8 := by omega
    have hab : y * 2 ≠ y * 2 + 1 := by omega
    have hpa : (d.vram.getD (y * 2) []).length = d.columns := by
      rw [List.getD_eq_getElem?_getD, List.getElem?_eq_getElem (by omega)]
      exact hpages _ (List.getElem_mem _)
    have hpb : (d.vram.getD (y * 2 + 1) []).length = d.columns := by
      rw [List.getD_eq_getElem?_getD, List.getElem?_eq_getElem (by omega)]
      exact hpages _ (List.getElem_mem _)
    have hpix : x * 8 + d.x_offset + 8 ≤ d.columns := by omega
    unfold write_graphics
    rw [if_neg (by omega), if_neg (by omega)]
    simp only []
    set pt := xorRange (d.vram.getD (y * 2) []) (x * 8 + d.x_offset)
      (swizzle_bits data).1 with hpt
    set pb := xorRange (d.vram.getD (y * 2 + 1) []) (x * 8 + d.x_offset)
      (swizzle_bits data).2 with hpb2
    have hga : ((d.vram.set (y * 2) pt).set (y * 2 + 1) pb).getD (y * 2) [] = pt := by
      rw [List.getD_eq_getElem?_getD, List.getElem?_set_ne (Ne.symm hab),
        List.getElem?_set_self (by omega)]
      rfl
    have hgb : ((d.vram.set (y * 2) pt).set (y * 2 + 1) pb).getD (y * 2 + 1) []
        = pb := by
      rw [List.getD_eq_getElem?_getD, List.getElem?_set_self (by simp; omega)]
      rfl
    rw [hga, hgb, hpt, hpb2,
      xorRange_cancel _ (by rw [hpa]; omega),
      xorRange_cancel _ (by rw [hpb]; omega)]
    show ((((d.vram.set (y * 2) pt).set (y * 2 + 1) pb).set (y * 2)
      (d.vram.getD (y * 2) [])).set (y * 2 + 1) (d.vram.getD (y * 2 + 1) [])) =
      d.vram
    rw [List.set_comm _ _ _ (Ne.symm hab), List.set_set, List.set_set,
      set_getD_self (by omega), set_getD_self (by omega)]

/-- Witness for C7 on a concrete display and bitmap. -/
theorem C7_witness :
    (write_graphics 3 1 glyphA
      (write_graphics 3 1 glyphA (mkDisplay [] 128 0))).vram =
      (mkDisplay [] 128 0).vram :=
  C7_write_graphics_involutive (mkDisplay [] 128 0) 3 1 glyphA (by decide)
    (by decide) (by decide)

/-- Glyph halves stored in a well-formed font are at most 8 bytes (unknown
codes yield the empty default). -/
theorem font_entry_le8 {font : List (List Nat × List Nat)}
    (hfont : ∀ g ∈ font, g.1.length = 8 ∧ g.2.length = 8) (c : Nat) :
    (font.getD c ([], [])).1.length ≤ 8 ∧ (font.getD c ([], [])).2.length ≤ 8 := by
  by_cases h : c < font.length
  · rw [List.getD_eq_getElem?_getD, List.getElem?_eq_getElem h]
    simp only [Option.getD_some]
    have := hfont _ (List.getElem_mem h)
    omega
  · rw [List.getD_eq_getElem?_getD, List.getElem?_eq_none (by omega)]
    simp

/-- The character loop of `write_text` preserves page lengths and does not
write outside `[pix_x, pix_x + 8 * len)`. -/
theorem writeChars_spec {font : List (List Nat × List Nat)}
    (hfont : ∀ g ∈ font, g.1.length = 8 ∧ g.2.length = 8) :
    ∀ (cs : List Nat) (pt pb : List Nat) (pix : Nat),
      pix + 8 * cs.length ≤ pt.length → pix + 8 * cs.length ≤ pb.length →
      (writeChars font pt pb pix cs).1.length = pt.length ∧
      (writeChars font pt pb pix cs).2.length = pb.length ∧
      (∀ j, (j < pix ∨ pix + 8 * cs.length ≤ j) →
        (writeChars font pt pb pix cs).1.getD j 0 = pt.getD j 0 ∧
        (writeChars font pt pb pix cs).2.getD j 0 = pb.getD j 0)
  | [], pt, pb, pix, h1, h2 => ⟨rfl, rfl, fun j hj => ⟨rfl, rfl⟩⟩
  | c :: cs, pt, pb, pix, h1, h2 => by
    obtain ⟨hg1, hg2⟩ := font_entry_le8 hfont c
    have hlc : (c :: cs).length = cs.length + 1 := rfl
    rw [hlc] at h1 h2
    have hs1 : pix + (font.getD c ([], [])).1.length ≤ pt.length := by omega
    have hs2 : pix + (font.getD c ([], [])).2.length ≤ pb.length := by omega
    have hsl1 : (setSlice pt pix (font.getD c ([], [])).1).length = pt.length :=
      setSlice_length hs1
    have hsl2 : (setSlice pb pix (font.getD c ([], [])).2).length = pb.length :=
      setSlice_length hs2
    obtain ⟨ih1, ih2, ihp⟩ := writeChars_spec hfont cs
      (setSlice pt pix (font.getD c ([], [])).1)
      (setSlice pb pix (font.getD c ([], [])).2) (pix + 8)
      (by rw [hsl1]; omega) (by rw [hsl2]; omega)
    refine ⟨by rw [show writeChars font pt pb pix (c :: cs) =
        writeChars font _ _ (pix + 8) cs from rfl, ih1, hsl1],
      by rw [show writeChars font pt pb pix (c :: cs) =
        writeChars font _ _ (pix + 8) cs from rfl, ih2, hsl2], ?_⟩
    intro j hj
    have hj' : j < pix + 8 ∨ pix + 8 + 8 * cs.length ≤ j := by omega
    obtain ⟨e1, e2⟩ := ihp j hj'
    rw [show writeChars font pt pb pix (c :: cs) =
      writeChars font _ _ (pix + 8) cs from rfl]
    rw [e1, e2]
    rcases hj with h | h
    · exact ⟨getD_setSlice_lt hs1 h, getD_setSlice_lt hs2 h⟩
    · exact ⟨getD_setSlice_ge hs1 (by omega), getD_setSlice_ge hs2 (by omega)⟩

theorem clipText_nil {x : Nat} (data : List Nat) (h : 16 ≤ x) :
    clipText x data = [] := by
  unfold clipText
  by_cases hc : 16 < x + data.length
  · rw [if_pos hc, show 16 - min x 16 = 0 by omega]
    rfl
  · rw [if_neg hc]
    have : data.length = 0 := by omega
    exact List.length_eq_zero.mp this

theorem clipText_bound {x : Nat} (data : List Nat) (h : x < 16) :
    x + (clipText x data).length ≤ 16 := by
  unfold clipText
  by_cases hc : 16 < x + data.length
  · rw [if_pos hc]
    simp
    omega
  · rw [if_neg hc]
    omega

/-- C8: `write_text` clips its input to the character-grid width: at most
`16 - min x 16` characters are drawn, no byte at or beyond pixel column
`128 + x_offset` is written, `write_text(15, 0, "AB")` draws the same as
`write_text(15, 0, "A")`, and for `x >= 16` the framebuffer is left entirely
unchanged. -/
theorem C8_write_text_clips (d : DisplayBase) (x y : Nat) (data : List Nat)
    (hy : y < 4) (hv : d.vram.length = 8)
    (hpages : ∀ p ∈ d.vram, p.length = d.columns)
    (hcols : 128 + d.x_offset ≤ d.columns)
    (hfont : ∀ g ∈ d.font, g.1.length = 8 ∧ g.2.length = 8) :
    (clipText x data).length ≤ 16 - min x 16 ∧
    (∀ p, p < 8 → ∀ j, 128 + d.x_offset ≤ j →
      ((write_text x y data d).vram.getD p []).getD j 0 =
        (d.vram.getD p []).getD j 0) ∧
    write_text 15 0 [65, 66] d = write_text 15 0 [65] d ∧
    (16 ≤ x → write_text x y data d = d) := by
  have ha8 : y * 2 < 8 := by omega
  have hb8 : y * 2 + 1 < 8 := by omega
  have hab : y * 2 ≠ y * 2 + 1 := by omega
  have hpa : (d.vram.getD (y * 2) []).length = d.columns := by
    rw [List.getD_eq_getElem?_getD, List.getElem?_eq_getElem (by omega)]
    exact hpages _ (List.getElem_mem _)
  have hpb : (d.vram.getD (y * 2 + 1) []).length = d.columns := by
    rw [List.getD_eq_getElem?_getD, List.getElem?_eq_getElem (by omega)]
    exact hpages _ (List.getElem_mem _)
  have hnil : 16 ≤ x → write_text x y data d = d := by
    intro h16
    unfold write_text
    rw [clipText_nil data h16]
    simp only [writeChars]
    rw [set_getD_self (by omega), set_getD_self (by omega)]
  have hwt : (write_text x y data d).vram =
      (d.vram.set (y * 2) (writeChars d.font (d.vram.getD (y * 2) [])
        (d.vram.getD (y * 2 + 1) []) (x * 8 + d.x_offset) (clipText x data)).1).set
        (y * 2 + 1) (writeChars d.font (d.vram.getD (y * 2) [])
          (d.vram.getD (y * 2 + 1) []) (x * 8 + d.x_offset) (clipText x data)).2 :=
    rfl
  refine ⟨?_, ?_, ?_, hnil⟩
  · by_cases hx : x < 16
    · have := clipText_bound data hx
      omega
    · rw [clipText_nil data (by omega)]
      simp
  · intro p hp j hjge
    by_cases hx : 16 ≤ x
    · rw [hnil hx]
    · push_neg at hx
      have hcb := clipText_bound data hx
      set W := writeChars d.font (d.vram.getD (y * 2) [])
        (d.vram.getD (y * 2 + 1) []) (x * 8 + d.x_offset) (clipText x data)
        with hWdef
      have hwc := writeChars_spec hfont (clipText x data)
        (d.vram.getD (y * 2) []) (d.vram.getD (y * 2 + 1) [])
        (x * 8 + d.x_offset) (by rw [hpa]; omega) (by rw [hpb]; omega)
      have hout : j < x * 8 + d.x_offset ∨
          x * 8 + d.x_offset + 8 * (clipText x data).length ≤ j := by omega
      obtain ⟨e1, e2⟩ := hwc.2.2 j hout
      rw [hwt]
      by_cases hpt : p = y * 2
      · subst hpt
        have hga : ((d.vram.set (y * 2) W.1).set (y * 2 + 1) W.2).getD
            (y * 2) [] = W.1 := by
          rw [List.getD_eq_getElem?_getD, List.getElem?_set_ne (Ne.symm hab),
            List.getElem?_set_self (by omega)]
          rfl
        rw [hga]
        exact e1
      · by_cases hpb2 : p = y * 2 + 1
        · subst hpb2
          have hgb : ((d.vram.set (y * 2) W.1).set (y * 2 + 1) W.2).getD
              (y * 2 + 1) [] = W.2 := by
            rw [List.getD_eq_getElem?_getD,
              List.getElem?_set_self (by simp; omega)]
            rfl
          rw [hgb]
          exact e2
        · have hgo : ((d.vram.set (y * 2) W.1).set (y * 2 + 1) W.2).getD p [] =
              d.vram.getD p [] := by
            rw [List.getD_eq_getElem?_getD, List.getElem?_set_ne (Ne.symm hpb2),
              List.getElem?_set_ne (Ne.symm hpt), List.getD_eq_getElem?_getD]
          rw [hgo]
  · unfold write_text
    rw [show clipText 15 [65, 66] = clipText 15 [65] from by decide]

/-- Witness for C8 on a concrete display. -/
theorem C8_witness :
    write_text 20 2 [65] (mkDisplay [] 128 0) = mkDisplay [] 128 0 :=
  (C8_write_text_clips (mkDisplay [] 128 0) 20 2 [65] (by decide) (by decide)
    (by decide) (by decide) (by decide)).2.2.2 (by decide)

/-- Witness for C4 on a concrete display. -/
theorem C4_witness :
    (flush none (mkDisplay [] 4 0)).1.shadow.getD 0 [] =
      (mkDisplay [] 4 0).vram.getD 0 [] ∧
    (flush none (flush none (mkDisplay [] 4 0)).1).2.1 = [] :=
  ⟨(C4_flush_commit (mkDisplay [] 4 0)).1 0 (by decide),
    (C4_flush_commit (mkDisplay [] 4 0)).2⟩

/-- C9: `write_glyph` returns 2 and overwrites 16 bytes in both target pages
with the registered icon's transposed halves exactly when the name is a
registered icon and `x < 15`; it returns 1 and delegates to `write_text` for
one character when the name is a fixed pseudo-glyph; otherwise it returns 0
and draws nothing — in particular a registered icon at column 15 whose name
is not a pseudo-glyph is refused with the framebuffer unchanged. -/
theorem C9_write_glyph_cases (d : DisplayBase) (x y : Nat) (name : String)
    (hy : y < 4) (hv : d.vram.length = 8)
    (hpages : ∀ p ∈ d.vram, p.length = d.columns)
    (hcols : 128 + d.x_offset ≤ d.columns) :
    (∀ icon, d.icons.lookup name = some icon → x < 15 →
      icon.1.length = 16 → icon.2.length = 16 →
      (write_glyph x y name d).1 = 2 ∧
      (∀ j, j < d.columns →
        (((write_glyph x y name d).2.vram.getD (y * 2) []).getD j 0 =
          if x * 8 + d.x_offset ≤ j ∧ j < x * 8 + d.x_offset + 16
          then icon.1.getD (j - (x * 8 + d.x_offset)) 0
          else (d.vram.getD (y * 2) []).getD j 0) ∧
        (((write_glyph x y name d).2.vram.getD (y * 2 + 1) []).getD j 0 =
          if x * 8 + d.x_offset ≤ j ∧ j < x * 8 + d.x_offset + 16
          then icon.2.getD (j - (x * 8 + d.x_offset)) 0
          else (d.vram.getD (y * 2 + 1) []).getD j 0)) ∧
      (∀ p, p < 8 → p ≠ y * 2 → p ≠ y * 2 + 1 →
        (write_glyph x y name d).2.vram.getD p [] = d.vram.getD p [])) ∧
    (∀ ch, TextGlyphs.lookup name = some ch →
      (d.icons.lookup name = none ∨ 15 ≤ x) →
      write_glyph x y name d = (1, write_text x y [ch] d)) ∧
    (d.icons.lookup name = none → TextGlyphs.lookup name = none →
      write_glyph x y name d = (0, d)) ∧
    (∀ icon, d.icons.lookup name = some icon → 15 ≤ x →
      TextGlyphs.lookup name = none → write_glyph x y name d = (0, d)) := by
  have hab : y * 2 ≠ y * 2 + 1 := by omega
  refine ⟨?_, ?_, ?_, ?_⟩
  · intro icon hlk hx h16a h16b
    have hpa : (d.vram.getD (y * 2) []).length = d.columns := by
      rw [List.getD_eq_getElem?_getD, List.getElem?_eq_getElem (by omega)]
      exact hpages _ (List.getElem_mem _)
    have hpb : (d.vram.getD (y * 2 + 1) []).length = d.columns := by
      rw [List.getD_eq_getElem?_getD, List.getElem?_eq_getElem (by omega)]
      exact hpages _ (List.getElem_mem _)
    have hfit : x * 8 + d.x_offset + 16 ≤ d.columns := by omega
    set PT := setSlice (d.vram.getD (y * 2) []) (x * 8 + d.x_offset) icon.1
      with hPT
    set PB := setSlice (d.vram.getD (y * 2 + 1) []) (x * 8 + d.x_offset) icon.2
      with hPB
    set V2 := (d.vram.set (y * 2) PT).set (y * 2 + 1) PB with hV2
    have hres : write_glyph x y name d = (2, { d with vram := V2 }) := by
      unfold write_glyph
      rw [hlk]
      simp only [if_pos hx, hV2, hPT, hPB]
    have hga : V2.getD (y * 2) [] = PT := by
      rw [hV2, List.getD_eq_getElem?_getD, List.getElem?_set_ne (Ne.symm hab),
        List.getElem?_set_self (by omega)]
      rfl
    have hgb : V2.getD (y * 2 + 1) [] = PB := by
      rw [hV2, List.getD_eq_getElem?_getD,
        List.getElem?_set_self (by simp; omega)]
      rfl
    refine ⟨by rw [hres], ?_, ?_⟩
    · intro j hj
      rw [hres]
      show (V2.getD (y * 2) []).getD j 0 = _ ∧ (V2.getD (y * 2 + 1) []).getD j 0 = _
      rw [hga, hgb, hPT, hPB]
      constructor
      · by_cases hin : x * 8 + d.x_offset ≤ j ∧ j < x * 8 + d.x_offset + 16
        · rw [if_pos hin,
            getD_setSlice_mem (by rw [h16a, hpa]; omega) hin.1 (by omega)]
        · rw [if_neg hin]
          rcases Nat.lt_or_ge j (x * 8 + d.x_offset) with h | h
          · exact getD_setSlice_lt (by rw [h16a, hpa]; omega) h
          · exact getD_setSlice_ge (by rw [h16a, hpa]; omega) (by omega)
      · by_cases hin : x * 8 + d.x_offset ≤ j ∧ j < x * 8 + d.x_offset + 16
        · rw [if_pos hin,
            getD_setSlice_mem (by rw [h16b, hpb]; omega) hin.1 (by omega)]
        · rw [if_neg hin]
          rcases Nat.lt_or_ge j (x * 8 + d.x_offset) with h | h
          · exact getD_setSlice_lt (by rw [h16b, hpb]; omega) h
          · exact getD_setSlice_ge (by rw [h16b, hpb]; omega) (by omega)
    · intro p hp hpa2 hpb2
      rw [hres]
      show V2.getD p [] = d.vram.getD p []
      rw [hV2, List.getD_eq_getElem?_getD, List.getElem?_set_ne (Ne.symm hpb2),
        List.getElem?_set_ne (Ne.symm hpa2), List.getD_eq_getElem?_getD]
  · intro ch hch hcase
    rcases hcase with h | h
    · unfold write_glyph
      rw [h, hch]
    · unfold write_glyph
      cases hlk : d.icons.lookup name with
      | none => rw [hch]
      | some icon =>
        simp only [if_neg (show ¬ x < 15 by omega), hch]
  · intro h1 h2
    unfold write_glyph
    rw [h1, h2]
  · intro icon hlk hx hch
    unfold write_glyph
    rw [hlk]
    simp only [if_neg (show ¬ x < 15 by omega), hch]

/-- Witness for C9: a registered icon at column 15 is refused. -/
theorem C9_witness :
    write_glyph 15 0 "fan" displayFan = (0, displayFan) :=
  (C9_write_glyph_cases displayFan 15 0 "fan" (by decide) (by decide)
    (by decide) (by decide)).2.2.2 iconFan (by decide) (by decide) (by decide)

/-- C6: if a `send` raises while flushing page `p`, the exception propagates
with no retry (the emitted sends are exactly the prefix of the fault-free
send sequence before the failing one), the shadow of page `p` — which was
dirty — and of every later page is untouched while every earlier, fully
processed page is committed, and the next flush therefore recomputes exactly
the same runs for page `p`. -/
theorem C6_send_fault (d : DisplayBase) (k : Nat)
    (hf : (flush (some k) d).2.2 = true) :
    (flush (some k) d).2.1 = (flush none d).2.1.take k ∧
    ∃ p, p < 8 ∧ d.vram.getD p [] ≠ d.shadow.getD p [] ∧
      (∀ i, i < p → (flush (some k) d).1.shadow.getD i [] = d.vram.getD i []) ∧
      (∀ i, p ≤ i → i < 8 →
        (flush (some k) d).1.shadow.getD i [] = d.shadow.getD i []) ∧
      pageRuns (d.vram.getD p []) ((flush (some k) d).1.shadow.getD p []) =
        pageRuns (d.vram.getD p []) (d.shadow.getD p []) := by
  have hr : (flushCore (some k) 0 (allFramebuffers d)).raised = true := hf
  obtain ⟨hm, j, hj, hne, hsh⟩ :=
    flushCore_fault_spec (allFramebuffers d) 0 k (Nat.zero_le k) hr
  have hj8 : j < 8 := by simpa [allFramebuffers] using hj
  have hlen : (((allFramebuffers d).take j).map
      (fun t => t.1)).length = j := by
    simp [allFramebuffers]
    omega
  have hgetl : ∀ i, i < j →
      (flush (some k) d).1.shadow.getD i [] = d.vram.getD i [] := by
    intro i hij
    show (flushCore (some k) 0 (allFramebuffers d)).shadow.getD i [] = _
    rw [hsh, List.getD_eq_getElem?_getD,
      List.getElem?_append_left (by rw [hlen]; omega),
      List.getElem?_map, List.getElem?_take, if_pos hij,
      allFramebuffers_getElem? d (by omega)]
    rfl
  have hgetr : ∀ i, j ≤ i → i < 8 →
      (flush (some k) d).1.shadow.getD i [] = d.shadow.getD i [] := by
    intro i h1 h2
    show (flushCore (some k) 0 (allFramebuffers d)).shadow.getD i [] = _
    rw [hsh, List.getD_eq_getElem?_getD,
      List.getElem?_append_right (by rw [hlen]; omega), hlen,
      List.getElem?_map, List.getElem?_drop, show j + (i - j) = i by omega,
      allFramebuffers_getElem? d h2]
    rfl
  refine ⟨?_, j, hj8, ?_, hgetl, hgetr, ?_⟩
  · show (flushCore (some k) 0 (allFramebuffers d)).msgs = _
    rw [hm, Nat.sub_zero]
    rfl
  · have := hne _ (allFramebuffers_getElem? d hj8)
    simpa using this
  · rw [hgetr j (Nat.le_refl j) hj8]

/-- Witness for C6: a concrete faulted flush. -/
theorem C6_witness :
    (flush (some 0) (mkDisplay [] 4 0)).2.2 = true ∧
    (flush (some 0) (mkDisplay [] 4 0)).2.1 =
      (flush none (mkDisplay [] 4 0)).2.1.take 0 :=
  ⟨by decide, (C6_send_fault (mkDisplay [] 4 0) 0 (by decide)).1⟩

end UC1701
